import Mathlib

/-!
Verification of the dotmgr generalize/specialize text-transformation engine
(`src/dotmgr.py`, class `Manager`, with the same logic duplicated in
`src/manager.py`).  Lines are modelled as lists of characters; the Python
string operations used by the source (`in` substring tests, `str.split`,
`str.join`, `str.startswith`, `re.findall`) are embedded as executable
functions on `List Char`.
-/

/-- A text line from a dotfile (as produced by Python `readlines`,
with its trailing newline). -/
abbrev Line := List Char

/-- A host tag (an arbitrary string). -/
abbrev Tag := List Char

/-- The whitespace characters of Python `str.split()` / regex `\s`
(ASCII range; the dotfiles at issue are ASCII). -/
def isPySpace (c : Char) : Bool :=
  c = ' ' || c = '\t' || c = '\n' || c = '\r' || c = '\x0b' || c = '\x0c'

/-- Python substring containment `pat in s`. -/
def occursIn (pat : List Char) : List Char → Bool
  | [] => pat.isEmpty
  | c :: s => pat.isPrefixOf (c :: s) || occursIn pat s

/-- Index of the first occurrence of `sep` in `s` (leftmost match),
`none` when `sep` does not occur. -/
def findSeq (sep : List Char) : List Char → Option Nat
  | [] => if sep.isEmpty then some 0 else none
  | c :: s => if sep.isPrefixOf (c :: s) then some 0 else (findSeq sep s).map (· + 1)

/-- Fuel-driven worker for `pySplit`; `fuel ≥ s.length` suffices, since every
recursive step removes at least one character (`sep` is nonempty there). -/
def pySplitF (sep : List Char) : Nat → List Char → List (List Char)
  | 0, s => [s]
  | fuel + 1, s =>
    match findSeq sep s with
    | none => [s]
    | some i => s.take i :: pySplitF sep fuel (s.drop (i + sep.length))

/-- Python `s.split(sep)` for a separator string: leftmost non-overlapping
splitting, keeping empty pieces.  (Python raises on an empty separator;
comment markers are nonempty, so that branch is never exercised.) -/
def pySplit (sep s : List Char) : List (List Char) :=
  if sep = [] then [s] else pySplitF sep s.length s

/-- Python `sep.join(ws)`. -/
def pyJoin (sep : List Char) : List (List Char) → List Char
  | [] => []
  | [w] => w
  | w :: x :: ws => w ++ sep ++ pyJoin sep (x :: ws)

/-- `cseq.join(line.split(cseq)[1:])`: what `Manager.generalize` writes for a
line under suppression (dotmgr.py lines 117-118). -/
def stripOne (cseq line : List Char) : List Char :=
  pyJoin cseq ((pySplit cseq line).drop 1)

/-- Worker for `pyWords`: `acc` is the (possibly empty) word being read. -/
def pyWordsGo : List Char → List Char → List (List Char)
  | acc, [] => if acc.isEmpty then [] else [acc]
  | acc, c :: s =>
    if isPySpace c then
      if acc.isEmpty then pyWordsGo [] s else acc :: pyWordsGo [] s
    else
      pyWordsGo (acc ++ [c]) s

/-- Python `s.split()` (no argument) and equally `re.findall(r'\S+', s)`:
the maximal runs of non-whitespace characters, in order. -/
def pyWords (s : List Char) : List (List Char) :=
  pyWordsGo [] s

/-- Python `s.split(sep)` for a single-character separator, keeping empties. -/
def pySplitOn (sep : Char) : List Char → List (List Char)
  | [] => [[]]
  | c :: s =>
    if c = sep then [] :: pySplitOn sep s
    else
      match pySplitOn sep s with
      | [] => [[c]]
      | w :: ws => (c :: w) :: ws

/-- The keyword of an `only` directive. -/
def kwOnly : List Char := "only".toList

/-- The keyword of a `not` directive. -/
def kwNot : List Char := "not".toList

/-- The keyword of an `end` directive. -/
def kwEnd : List Char := "end".toList

/-- `'{0}{0}only'.format(cseq)` and friends: the doubled comment marker
immediately followed by the keyword. -/
def dirTok (cseq kw : List Char) : List Char :=
  cseq ++ cseq ++ kw

/-- `section_tags = line.split(); section_tags = section_tags[1:]`
(dotmgr.py lines 242-243, 252-253 and the generalize twins 93-94, 103-104). -/
def sectionTags (line : Line) : List Tag :=
  (pyWords line).drop 1

/-- Truthiness of `[tag for tag in tags if tag in section_tags]`: does any
host tag occur among the section tags? -/
def tagsMatch (tags secTags : List Tag) : Bool :=
  tags.any fun t => secTags.contains t

/-- A line containing one of the three directive tokens. -/
def isDirective (cseq : List Char) (line : Line) : Bool :=
  occursIn (dirTok cseq kwOnly) line || occursIn (dirTok cseq kwNot) line ||
    occursIn (dirTok cseq kwEnd) line

/-- One iteration of the `Manager.specialize` loop body (dotmgr.py
lines 240-268).  Returns the text written for this line and the value of
`comment_out` after the iteration.  The `continue` paths of the source are
the two early tuples; the fall-through flag assignments are `co1`-`co3`. -/
def specializeLine (cseq : List Char) (tags : List Tag) (comment_out : Bool)
    (line : Line) : Line × Bool :=
  if occursIn (dirTok cseq kwOnly) line && !tagsMatch tags (sectionTags line) then
    (line, true)
  else
    let co1 := if occursIn (dirTok cseq kwOnly) line then false else comment_out
    if occursIn (dirTok cseq kwNot) line && tagsMatch tags (sectionTags line) then
      (line, true)
    else
      let co2 := if occursIn (dirTok cseq kwNot) line then false else co1
      let co3 := if occursIn (dirTok cseq kwEnd) line then false else co2
      if co3 then (cseq ++ line, true) else (line, false)

/-- One iteration of the `Manager.generalize` loop body (dotmgr.py
lines 91-120).  Identical branch structure to `specializeLine`; only the
final write differs: a suppressed line is stripped of everything up to and
including the first occurrence of the marker instead of being prefixed. -/
def generalizeLine (cseq : List Char) (tags : List Tag) (strip : Bool)
    (line : Line) : Line × Bool :=
  if occursIn (dirTok cseq kwOnly) line && !tagsMatch tags (sectionTags line) then
    (line, true)
  else
    let st1 := if occursIn (dirTok cseq kwOnly) line then false else strip
    if occursIn (dirTok cseq kwNot) line && tagsMatch tags (sectionTags line) then
      (line, true)
    else
      let st2 := if occursIn (dirTok cseq kwNot) line then false else st1
      let st3 := if occursIn (dirTok cseq kwEnd) line then false else st2
      if st3 then (stripOne cseq line, true) else (line, false)

/-- The specialize loop over a whole line sequence: the written lines and
the final flag. -/
def specializeLines (cseq : List Char) (tags : List Tag) :
    Bool → List Line → List Line × Bool
  | co, [] => ([], co)
  | co, l :: ls =>
    let r := specializeLine cseq tags co l
    let rest := specializeLines cseq tags r.2 ls
    (r.1 :: rest.1, rest.2)

/-- The generalize loop over a whole line sequence. -/
def generalizeLines (cseq : List Char) (tags : List Tag) :
    Bool → List Line → List Line × Bool
  | st, [] => ([], st)
  | st, l :: ls =>
    let r := generalizeLine cseq tags st l
    let rest := generalizeLines cseq tags r.2 ls
    (r.1 :: rest.1, rest.2)

/-- `Manager.specialize` on a line sequence, with the comment marker and tag
set as parameters; `comment_out` starts `False` (dotmgr.py line 239).  The
source's early return on empty content writes nothing, which coincides with
the loop's output on `[]`. -/
def specialize (cseq : List Char) (tags : List Tag) (lines : List Line) : List Line :=
  (specializeLines cseq tags false lines).1

/-- `Manager.generalize` on a line sequence, marker and tags as parameters;
`strip` starts `False` (dotmgr.py line 90). -/
def generalize (cseq : List Char) (tags : List Tag) (lines : List Line) : List Line :=
  (generalizeLines cseq tags false lines).1

/-- Whether an `only`/`not` directive line arms suppression.  Directive lines
overwrite the incoming flag, so the value starting from `false` is the value
from any state (proved below). -/
def arm (cseq : List Char) (tags : List Tag) (line : Line) : Bool :=
  (specializeLine cseq tags false line).2

/-- `Manager.identify_comment_sequence` (dotmgr.py lines 161-177):
`matches = re.findall(r'\S+', line)`, fatal `exit()` when there is no match
(modelled as `none`), else `matches[0]`. -/
def identify_comment_sequence (line : Line) : Option (List Char) :=
  (pyWords line).head?

/-- Outcome of one top-level `Manager.generalize` invocation on a dotfile. -/
inductive FileOutcome where
  /-- The function returned early: nothing was written to the repository. -/
  | skipped : FileOutcome
  /-- `identify_comment_sequence` called `exit()`: the run aborts. -/
  | fatal : FileOutcome
  /-- The repository copy was replaced with the given content. -/
  | wrote : List Line → FileOutcome
deriving DecidableEq

/-- Top-level `Manager.generalize` (dotmgr.py lines 64-120) as a function of
the result of reading the stage file: `none` models `FileNotFoundError`
(lines 79-81: a message is printed and `specific_content` stays `None`);
`if not specific_content: return` then skips both `None` and `[]` before any
repository write; otherwise the marker is derived from the first line
(fatal on failure) and the transformed lines are written. -/
def generalizeFile (stageRead : Option (List Line)) (tags : List Tag) : FileOutcome :=
  match stageRead with
  | none => .skipped
  | some [] => .skipped
  | some (l0 :: rest) =>
    match identify_comment_sequence l0 with
    | none => .fatal
    | some cseq => .wrote (generalize cseq tags (l0 :: rest))

/-- `Manager.get_tags` (dotmgr.py lines 138-159) with the hostname and the
tag-configuration lines as parameters: the first line starting with
`hostname + ':'` yields `line.split(':')[1].split()`; if none matches, a
warning is printed and `['']` is returned. -/
def get_tags (hostname : List Char) : List Line → List Tag
  | [] => [[]]
  | line :: rest =>
    if (hostname ++ [':']).isPrefixOf line then
      pyWords ((pySplitOn ':' line).getD 1 [])
    else
      get_tags hostname rest

/-- A well-formed directive block: an `only`/`not` opener, body lines, and
an `end` line. -/
structure Block where
  opener : Line
  body : List Line
  ender : Line
deriving DecidableEq

/-- A piece of a block-structured file: a plain line outside any section,
or a directive block. -/
inductive Chunk where
  | plain : Line → Chunk
  | block : Block → Chunk
deriving DecidableEq

/-- The lines of a chunk. -/
def Chunk.lines : Chunk → List Line
  | .plain l => [l]
  | .block b => b.opener :: (b.body ++ [b.ender])

/-- The lines of a chunk sequence. -/
def chunksLines : List Chunk → List Line
  | [] => []
  | c :: cs => c.lines ++ chunksLines cs

/-- Well-formedness of a chunk for a fixed marker and tag set: plain lines
carry no directive token; a block's opener is an `only`/`not` line, its
ender an `end` line with no `only`/`not` token, its body directive-free —
and, when the block is suppressed for this host, the body lines must remain
directive-free after the marker is prefixed (the condition the round-trip
needs and the spec leaves implicit). -/
def WfChunk (cseq : List Char) (tags : List Tag) : Chunk → Bool
  | .plain l => !isDirective cseq l
  | .block b =>
    (occursIn (dirTok cseq kwOnly) b.opener || occursIn (dirTok cseq kwNot) b.opener) &&
    occursIn (dirTok cseq kwEnd) b.ender &&
    !occursIn (dirTok cseq kwOnly) b.ender &&
    !occursIn (dirTok cseq kwNot) b.ender &&
    b.body.all (fun l => !isDirective cseq l) &&
    (!arm cseq tags b.opener || b.body.all fun l => !isDirective cseq (cseq ++ l))

/-- The body of a block after specialization: commented out when the block
is suppressed for this host, untouched otherwise. -/
def specBlockBody (cseq : List Char) (tags : List Tag) (b : Block) : List Line :=
  if arm cseq tags b.opener then b.body.map (fun l => cseq ++ l) else b.body

/-- A chunk after specialization. -/
def specChunkLines (cseq : List Char) (tags : List Tag) : Chunk → List Line
  | .plain l => [l]
  | .block b => b.opener :: (specBlockBody cseq tags b ++ [b.ender])

/-- A chunk sequence after specialization. -/
def specChunksLines (cseq : List Char) (tags : List Tag) : List Chunk → List Line
  | [] => []
  | c :: cs => specChunkLines cseq tags c ++ specChunksLines cseq tags cs

/-- Modelled from the spec: "A directive line's remaining whitespace-separated
tokens (after the keyword) are its section tags" — the tokens that follow the
first whitespace-delimited token containing the directive token.  Comparison
definition for the section-tag claim; the code uses `sectionTags`. -/
def sectionTagsSpec (cseq kw : List Char) (line : Line) : List Tag :=
  ((pyWords line).dropWhile fun w => !occursIn (dirTok cseq kw) w).drop 1

theorem isPrefixOf_self_append (p t : List Char) : p.isPrefixOf (p ++ t) = true := by
  induction p with
  | nil => simp [List.isPrefixOf]
  | cons a as ih => simp [List.isPrefixOf, ih]

theorem eq_append_drop_of_isPrefixOf :
    ∀ {p s : List Char}, p.isPrefixOf s = true → s = p ++ s.drop p.length := by
  intro p
  induction p with
  | nil => intro s _; simp
  | cons a as ih =>
    intro s h
    cases s with
    | nil => simp [List.isPrefixOf] at h
    | cons b bs =>
      simp only [List.isPrefixOf, Bool.and_eq_true, beq_iff_eq] at h
      obtain ⟨rfl, h2⟩ := h
      simpa using ih h2

theorem isPrefixOf_of_append_isPrefixOf :
    ∀ {p q s : List Char}, (p ++ q).isPrefixOf s = true → p.isPrefixOf s = true := by
  intro p
  induction p with
  | nil => intro q s _; simp [List.isPrefixOf]
  | cons a as ih =>
    intro q s h
    cases s with
    | nil => simp [List.isPrefixOf] at h
    | cons b bs =>
      simp only [List.cons_append, List.isPrefixOf, Bool.and_eq_true] at h ⊢
      exact ⟨h.1, ih h.2⟩

theorem occursIn_append_left {pat s : List Char} (a : List Char)
    (h : occursIn pat s = true) : occursIn pat (a ++ s) = true := by
  induction a with
  | nil => simpa
  | cons c cs ih => simp [occursIn, ih]

theorem occursIn_of_occursIn_append :
    ∀ {p q s : List Char}, occursIn (p ++ q) s = true → occursIn p s = true := by
  intro p q s
  induction s with
  | nil =>
    simp only [occursIn, List.isEmpty_iff, List.append_eq_nil]
    exact fun h => h.1
  | cons c cs ih =>
    simp only [occursIn, Bool.or_eq_true]
    rintro (h | h)
    · exact Or.inl (isPrefixOf_of_append_isPrefixOf h)
    · exact Or.inr (ih h)

theorem not_occursIn_dirTok {cseq line : List Char} (kw : List Char)
    (h : occursIn cseq line = false) : occursIn (dirTok cseq kw) line = false := by
  cases hx : occursIn (dirTok cseq kw) line
  · rfl
  · have hc : occursIn cseq line = true :=
      occursIn_of_occursIn_append (p := cseq) (q := cseq ++ kw) (s := line)
        (by simpa [dirTok, List.append_assoc] using hx)
    rw [h] at hc
    exact absurd hc (by simp)

theorem findSeq_none_of_not_occursIn :
    ∀ {sep s : List Char}, occursIn sep s = false → findSeq sep s = none := by
  intro sep s
  induction s with
  | nil =>
    simp only [occursIn, findSeq]
    intro h
    simp [h]
  | cons c cs ih =>
    simp only [occursIn, Bool.or_eq_false_iff, findSeq]
    rintro ⟨h1, h2⟩
    simp [h1, ih h2]

theorem findSeq_decomp :
    ∀ {s : List Char} {sep : List Char} {i : Nat}, findSeq sep s = some i →
      s = s.take i ++ sep ++ s.drop (i + sep.length) ∧ i + sep.length ≤ s.length := by
  intro s
  induction s with
  | nil =>
    intro sep i h
    simp only [findSeq] at h
    by_cases hsep : sep.isEmpty
    · rw [if_pos hsep] at h
      obtain rfl : (0 : Nat) = i := by simpa using h
      obtain rfl : sep = [] := by simpa [List.isEmpty_iff] using hsep
      simp
    · rw [if_neg hsep] at h
      exact absurd h (by simp)
  | cons c cs ih =>
    intro sep i h
    simp only [findSeq] at h
    by_cases hpre : sep.isPrefixOf (c :: cs) = true
    · rw [if_pos hpre] at h
      obtain rfl : (0 : Nat) = i := by simpa using h
      have hd := eq_append_drop_of_isPrefixOf hpre
      constructor
      · simpa using hd
      · have := congrArg List.length hd
        simp only [List.length_append] at this
        omega
    · rw [if_neg hpre] at h
      cases hrec : findSeq sep cs with
      | none => rw [hrec] at h; simp at h
      | some j =>
        rw [hrec] at h
        obtain rfl : j + 1 = i := by simpa using h
        obtain ⟨hdec, hlen⟩ := ih hrec
        constructor
        · have hr : (c :: cs).take (j + 1) ++ sep ++ (c :: cs).drop (j + 1 + sep.length) =
              c :: (cs.take j ++ sep ++ cs.drop (j + sep.length)) := by
            rw [List.take_succ_cons, Nat.add_right_comm j 1 sep.length,
              List.drop_succ_cons]
            simp
          rw [hr, ← hdec]
        · simp only [List.length_cons]; omega

theorem pySplitF_ne_nil (sep : List Char) (fuel : Nat) (s : List Char) :
    pySplitF sep fuel s ≠ [] := by
  cases fuel with
  | zero => simp [pySplitF]
  | succ n =>
    simp only [pySplitF]
    cases findSeq sep s <;> simp

theorem pyJoin_pySplitF (sep : List Char) (hsep : sep ≠ []) :
    ∀ (fuel : Nat) (s : List Char), s.length ≤ fuel →
      pyJoin sep (pySplitF sep fuel s) = s := by
  intro fuel
  induction fuel with
  | zero =>
    intro s hs
    obtain rfl : s = [] := by
      cases s with
      | nil => rfl
      | cons c cs => simp at hs
    simp [pySplitF, pyJoin]
  | succ n ih =>
    intro s hs
    cases hfind : findSeq sep s with
    | none => simp [pySplitF, hfind, pyJoin]
    | some i =>
      simp only [pySplitF, hfind]
      obtain ⟨hdec, hlen⟩ := findSeq_decomp hfind
      have hL : 1 ≤ sep.length := by
        cases sep with
        | nil => exact absurd rfl hsep
        | cons a as => simp
      have hrest : (s.drop (i + sep.length)).length ≤ n := by
        simp only [List.length_drop]
        omega
      obtain ⟨w, ws, hws⟩ :
          ∃ w ws, pySplitF sep n (s.drop (i + sep.length)) = w :: ws := by
        cases hx : pySplitF sep n (s.drop (i + sep.length)) with
        | nil => exact absurd hx (pySplitF_ne_nil sep n _)
        | cons w ws => exact ⟨w, ws, rfl⟩
      rw [hws]
      have hih := ih (s.drop (i + sep.length)) hrest
      rw [hws] at hih
      have hjoin : pyJoin sep (s.take i :: w :: ws) =
          s.take i ++ sep ++ pyJoin sep (w :: ws) := rfl
      rw [hjoin, hih]
      exact hdec.symm

theorem pySplit_of_not_occursIn {sep s : List Char} (h : occursIn sep s = false) :
    pySplit sep s = [s] := by
  by_cases hsep : sep = []
  · simp [pySplit, hsep]
  · simp only [pySplit, if_neg hsep]
    rw [show pySplitF sep s.length s = [s] from ?_]
    cases hfuel : s.length with
    | zero => simp [pySplitF]
    | succ n => simp [pySplitF, findSeq_none_of_not_occursIn h]

theorem stripOne_eq_nil_of_not_occursIn {sep s : List Char}
    (h : occursIn sep s = false) : stripOne sep s = [] := by
  simp [stripOne, pySplit_of_not_occursIn h, pyJoin]

theorem findSeq_self_append (sep t : List Char) (hsep : sep ≠ []) :
    findSeq sep (sep ++ t) = some 0 := by
  cases hs : sep ++ t with
  | nil =>
    exact absurd (List.append_eq_nil.mp hs).1 hsep
  | cons c cs =>
    rw [← hs]
    cases sep with
    | nil => exact absurd rfl hsep
    | cons a as =>
      simp only [List.cons_append, findSeq]
      rw [if_pos]
      exact isPrefixOf_self_append (a :: as) t

theorem stripOne_append_self {cseq : List Char} (b : List Char) (hsep : cseq ≠ []) :
    stripOne cseq (cseq ++ b) = b := by
  have hL : 1 ≤ cseq.length := by
    cases cseq with
    | nil => exact absurd rfl hsep
    | cons a as => simp
  have hlen : (cseq ++ b).length = cseq.length + b.length := by simp
  simp only [stripOne, pySplit, if_neg hsep]
  cases hfuel : (cseq ++ b).length with
  | zero => omega
  | succ n =>
    simp only [pySplitF, findSeq_self_append cseq b hsep]
    have hdrop : (cseq ++ b).drop (0 + cseq.length) = b := by
      simp [List.drop_left]
    rw [hdrop]
    simp only [List.take_zero, List.drop_one, List.tail_cons]
    exact pyJoin_pySplitF cseq hsep n b (by omega)

theorem tagsMatch_iff_exists (tags secTags : List Tag) :
    tagsMatch tags secTags = true ↔ ∃ t ∈ tags, t ∈ secTags := by
  simp [tagsMatch, List.any_eq_true, List.contains, List.elem_eq_mem]

theorem specializeLine_noDirective {cseq : List Char} (tags : List Tag) {l : Line}
    (h : isDirective cseq l = false) (co : Bool) :
    specializeLine cseq tags co l = (if co then cseq ++ l else l, co) := by
  simp only [isDirective, Bool.or_eq_false_iff] at h
  obtain ⟨⟨hO, hN⟩, hE⟩ := h
  cases co <;> simp [specializeLine, hO, hN, hE]

theorem generalizeLine_noDirective {cseq : List Char} (tags : List Tag) {l : Line}
    (h : isDirective cseq l = false) (st : Bool) :
    generalizeLine cseq tags st l = (if st then stripOne cseq l else l, st) := by
  simp only [isDirective, Bool.or_eq_false_iff] at h
  obtain ⟨⟨hO, hN⟩, hE⟩ := h
  cases st <;> simp [generalizeLine, hO, hN, hE]

theorem directiveLine_verbatim {cseq : List Char} (tags : List Tag) {l : Line}
    (h : isDirective cseq l = true) (co : Bool) :
    (specializeLine cseq tags co l).1 = l ∧ (generalizeLine cseq tags co l).1 = l := by
  cases hO : occursIn (dirTok cseq kwOnly) l <;>
    cases hN : occursIn (dirTok cseq kwNot) l <;>
      cases hE : occursIn (dirTok cseq kwEnd) l <;>
        cases hM : tagsMatch tags (sectionTags l) <;>
          simp_all [isDirective, specializeLine, generalizeLine]

theorem openerLine_eval {cseq : List Char} (tags : List Tag) {l : Line}
    (h : (occursIn (dirTok cseq kwOnly) l || occursIn (dirTok cseq kwNot) l) = true)
    (co : Bool) :
    specializeLine cseq tags co l = (l, arm cseq tags l) ∧
      generalizeLine cseq tags co l = (l, arm cseq tags l) := by
  cases hO : occursIn (dirTok cseq kwOnly) l <;>
    cases hN : occursIn (dirTok cseq kwNot) l <;>
      cases hE : occursIn (dirTok cseq kwEnd) l <;>
        cases hM : tagsMatch tags (sectionTags l) <;>
          simp_all [specializeLine, generalizeLine, arm]

theorem endLine_eval {cseq : List Char} (tags : List Tag) {l : Line}
    (hE : occursIn (dirTok cseq kwEnd) l = true)
    (hO : occursIn (dirTok cseq kwOnly) l = true → tagsMatch tags (sectionTags l) = true)
    (hN : occursIn (dirTok cseq kwNot) l = true → tagsMatch tags (sectionTags l) = false)
    (co : Bool) :
    specializeLine cseq tags co l = (l, false) ∧
      generalizeLine cseq tags co l = (l, false) := by
  cases hO' : occursIn (dirTok cseq kwOnly) l <;>
    cases hN' : occursIn (dirTok cseq kwNot) l <;>
      cases hM : tagsMatch tags (sectionTags l) <;>
        simp_all [specializeLine, generalizeLine]

theorem generalizeLine_flag_eq (cseq : List Char) (tags : List Tag) (co : Bool)
    (l : Line) :
    (generalizeLine cseq tags co l).2 = (specializeLine cseq tags co l).2 := by
  cases hO : occursIn (dirTok cseq kwOnly) l <;>
    cases hN : occursIn (dirTok cseq kwNot) l <;>
      cases hE : occursIn (dirTok cseq kwEnd) l <;>
        cases hM : tagsMatch tags (sectionTags l) <;>
          cases co <;> simp_all [specializeLine, generalizeLine]

theorem specializeLines_append (cseq : List Char) (tags : List Tag) (co : Bool)
    (xs ys : List Line) :
    specializeLines cseq tags co (xs ++ ys) =
      ((specializeLines cseq tags co xs).1 ++
          (specializeLines cseq tags (specializeLines cseq tags co xs).2 ys).1,
        (specializeLines cseq tags (specializeLines cseq tags co xs).2 ys).2) := by
  induction xs generalizing co with
  | nil => simp [specializeLines]
  | cons x xs ih => simp [specializeLines, ih]

theorem generalizeLines_append (cseq : List Char) (tags : List Tag) (st : Bool)
    (xs ys : List Line) :
    generalizeLines cseq tags st (xs ++ ys) =
      ((generalizeLines cseq tags st xs).1 ++
          (generalizeLines cseq tags (generalizeLines cseq tags st xs).2 ys).1,
        (generalizeLines cseq tags (generalizeLines cseq tags st xs).2 ys).2) := by
  induction xs generalizing st with
  | nil => simp [generalizeLines]
  | cons x xs ih => simp [generalizeLines, ih]

theorem specializeLines_noDir_false {cseq : List Char} (tags : List Tag) {ls : List Line}
    (h : ∀ l ∈ ls, isDirective cseq l = false) :
    specializeLines cseq tags false ls = (ls, false) := by
  induction ls with
  | nil => rfl
  | cons x xs ih =>
    have hx := specializeLine_noDirective tags (h x (by simp)) false
    simp only [specializeLines, hx]
    rw [ih fun l hl => h l (by simp [hl])]
    simp

theorem specializeLines_noDir_true {cseq : List Char} (tags : List Tag) {ls : List Line}
    (h : ∀ l ∈ ls, isDirective cseq l = false) :
    specializeLines cseq tags true ls = (ls.map fun l => cseq ++ l, true) := by
  induction ls with
  | nil => rfl
  | cons x xs ih =>
    have hx := specializeLine_noDirective tags (h x (by simp)) true
    simp only [specializeLines, hx]
    rw [ih fun l hl => h l (by simp [hl])]
    simp

theorem generalizeLines_noDir_false {cseq : List Char} (tags : List Tag) {ls : List Line}
    (h : ∀ l ∈ ls, isDirective cseq l = false) :
    generalizeLines cseq tags false ls = (ls, false) := by
  induction ls with
  | nil => rfl
  | cons x xs ih =>
    have hx := generalizeLine_noDirective tags (h x (by simp)) false
    simp only [generalizeLines, hx]
    rw [ih fun l hl => h l (by simp [hl])]
    simp

theorem generalizeLines_strip_map {cseq : List Char} (tags : List Tag) {ls : List Line}
    (hsep : cseq ≠ [])
    (h : ∀ l ∈ ls, isDirective cseq (cseq ++ l) = false) :
    generalizeLines cseq tags true (ls.map fun l => cseq ++ l) = (ls, true) := by
  induction ls with
  | nil => rfl
  | cons x xs ih =>
    have hx := generalizeLine_noDirective tags (h x (by simp)) true
    simp only [List.map_cons, generalizeLines, hx]
    rw [ih fun l hl => h l (by simp [hl])]
    simp [stripOne_append_self x hsep]

theorem specializeLines_singleton (cseq : List Char) (tags : List Tag) (co : Bool)
    (l : Line) :
    specializeLines cseq tags co [l] =
      ([(specializeLine cseq tags co l).1], (specializeLine cseq tags co l).2) := by
  simp [specializeLines]

theorem generalizeLines_singleton (cseq : List Char) (tags : List Tag) (st : Bool)
    (l : Line) :
    generalizeLines cseq tags st [l] =
      ([(generalizeLine cseq tags st l).1], (generalizeLine cseq tags st l).2) := by
  simp [generalizeLines]

theorem spec_chunk {cseq : List Char} {tags : List Tag} {c : Chunk}
    (h : WfChunk cseq tags c = true) :
    specializeLines cseq tags false c.lines = (specChunkLines cseq tags c, false) := by
  cases c with
  | plain l =>
    simp only [WfChunk, Bool.not_eq_true'] at h
    simp [Chunk.lines, specChunkLines, specializeLines,
      specializeLine_noDirective tags h false]
  | block b =>
    simp only [WfChunk, Bool.and_eq_true] at h
    obtain ⟨⟨⟨⟨⟨hop, hend⟩, hendO⟩, hendN⟩, hbody⟩, harm⟩ := h
    have hbody' : ∀ l ∈ b.body, isDirective cseq l = false := by
      intro l hl
      have := List.all_eq_true.mp hbody l hl
      simpa using this
    have hendO' : occursIn (dirTok cseq kwOnly) b.ender = false := by
      simpa using hendO
    have hendN' : occursIn (dirTok cseq kwNot) b.ender = false := by
      simpa using hendN
    have hender := endLine_eval tags hend
      (fun hx => absurd hx (by simp [hendO'])) (fun hx => absurd hx (by simp [hendN']))
    have hop' := (openerLine_eval tags hop false).1
    show specializeLines cseq tags false (b.opener :: (b.body ++ [b.ender])) = _
    simp only [specializeLines, hop']
    rw [specializeLines_append]
    by_cases ha : arm cseq tags b.opener = true
    · rw [ha, specializeLines_noDir_true tags hbody']
      simp only [specializeLines_singleton, (hender true).1, (hender true).2]
      simp [specChunkLines, specBlockBody, ha]
    · rw [Bool.not_eq_true] at ha
      rw [ha, specializeLines_noDir_false tags hbody']
      simp only [specializeLines_singleton, (hender false).1, (hender false).2]
      simp [specChunkLines, specBlockBody, ha]

theorem gen_chunk {cseq : List Char} {tags : List Tag} {c : Chunk} (hsep : cseq ≠ [])
    (h : WfChunk cseq tags c = true) :
    generalizeLines cseq tags false (specChunkLines cseq tags c) = (c.lines, false) := by
  cases c with
  | plain l =>
    simp only [WfChunk, Bool.not_eq_true'] at h
    simp [Chunk.lines, specChunkLines, generalizeLines,
      generalizeLine_noDirective tags h false]
  | block b =>
    simp only [WfChunk, Bool.and_eq_true] at h
    obtain ⟨⟨⟨⟨⟨hop, hend⟩, hendO⟩, hendN⟩, hbody⟩, harm⟩ := h
    have hbody' : ∀ l ∈ b.body, isDirective cseq l = false := by
      intro l hl
      have := List.all_eq_true.mp hbody l hl
      simpa using this
    have hendO' : occursIn (dirTok cseq kwOnly) b.ender = false := by
      simpa using hendO
    have hendN' : occursIn (dirTok cseq kwNot) b.ender = false := by
      simpa using hendN
    have hender := endLine_eval tags hend
      (fun hx => absurd hx (by simp [hendO'])) (fun hx => absurd hx (by simp [hendN']))
    have hop' := (openerLine_eval tags hop false).2
    show generalizeLines cseq tags false
        (b.opener :: (specBlockBody cseq tags b ++ [b.ender])) = _
    simp only [generalizeLines, hop']
    rw [generalizeLines_append]
    by_cases ha : arm cseq tags b.opener = true
    · have harm' : ∀ l ∈ b.body, isDirective cseq (cseq ++ l) = false := by
        rcases Bool.or_eq_true _ _ |>.mp harm with hfalse | hall
        · rw [Bool.not_eq_true'] at hfalse
          rw [hfalse] at ha
          exact absurd ha (by simp)
        · intro l hl
          have := List.all_eq_true.mp hall l hl
          simpa using this
      rw [show specBlockBody cseq tags b = b.body.map fun l => cseq ++ l by
        simp [specBlockBody, ha]]
      rw [ha, generalizeLines_strip_map tags hsep harm']
      simp only [generalizeLines_singleton, (hender true).1, (hender true).2]
      simp [Chunk.lines]
    · rw [Bool.not_eq_true] at ha
      rw [show specBlockBody cseq tags b = b.body by simp [specBlockBody, ha]]
      rw [ha, generalizeLines_noDir_false tags hbody']
      simp only [generalizeLines_singleton, (hender false).1, (hender false).2]
      simp [Chunk.lines]

theorem roundtrip_chunksAux {cseq : List Char} {tags : List Tag} (hsep : cseq ≠ []) :
    ∀ cs : List Chunk, (∀ c ∈ cs, WfChunk cseq tags c = true) →
      specializeLines cseq tags false (chunksLines cs) =
        (specChunksLines cseq tags cs, false) ∧
      generalizeLines cseq tags false (specChunksLines cseq tags cs) =
        (chunksLines cs, false) := by
  intro cs
  induction cs with
  | nil => intro _; exact ⟨rfl, rfl⟩
  | cons c cs ih =>
    intro h
    obtain ⟨ih1, ih2⟩ := ih fun x hx => h x (by simp [hx])
    have hc := h c (by simp)
    constructor
    · show specializeLines cseq tags false (c.lines ++ chunksLines cs) = _
      rw [specializeLines_append, spec_chunk hc]
      simp [ih1, specChunksLines]
    · show generalizeLines cseq tags false
          (specChunkLines cseq tags c ++ specChunksLines cseq tags cs) = _
      rw [generalizeLines_append, gen_chunk hsep hc]
      simp [ih2, chunksLines]

theorem pyWordsGo_space_skip {pre : List Char} (h : ∀ c ∈ pre, isPySpace c = true)
    (s : List Char) : pyWordsGo [] (pre ++ s) = pyWordsGo [] s := by
  induction pre with
  | nil => rfl
  | cons c cs ih =>
    have hc := h c (by simp)
    simp [pyWordsGo, hc, ih fun d hd => h d (by simp [hd])]

theorem pyWordsGo_word {tok : List Char} (h : ∀ c ∈ tok, isPySpace c = false) :
    ∀ acc rest : List Char, pyWordsGo acc (tok ++ rest) = pyWordsGo (acc ++ tok) rest := by
  induction tok with
  | nil => intro acc rest; simp
  | cons c cs ih =>
    intro acc rest
    have hc := h c (by simp)
    show pyWordsGo acc (c :: (cs ++ rest)) = _
    simp only [pyWordsGo, hc, Bool.false_eq_true, if_false]
    rw [ih (fun d hd => h d (by simp [hd])) (acc ++ [c]) rest]
    simp

theorem pyWords_all_space {s : List Char} (h : ∀ c ∈ s, isPySpace c = true) :
    pyWords s = [] := by
  have hs := pyWordsGo_space_skip h []
  simpa [pyWords, pyWordsGo] using hs

theorem pyWords_decomp {pre tok rest : List Char}
    (hpre : ∀ c ∈ pre, isPySpace c = true) (htok : tok ≠ [])
    (htok2 : ∀ c ∈ tok, isPySpace c = false)
    (hrest : rest = [] ∨ ∃ d rs, rest = d :: rs ∧ isPySpace d = true) :
    pyWords (pre ++ tok ++ rest) = tok :: pyWords rest := by
  rw [List.append_assoc]
  show pyWordsGo [] (pre ++ (tok ++ rest)) = _
  rw [pyWordsGo_space_skip hpre, pyWordsGo_word htok2 [] rest]
  have htok' : tok.isEmpty = false := by
    cases tok with
    | nil => exact absurd rfl htok
    | cons a as => rfl
  rcases hrest with rfl | ⟨d, rs, rfl, hd⟩
  · simp [pyWordsGo, htok', pyWords]
  · simp [pyWordsGo, hd, htok', pyWords]

theorem pySplitOn_ne_nil (sep : Char) (s : List Char) : pySplitOn sep s ≠ [] := by
  cases s with
  | nil => simp [pySplitOn]
  | cons c cs =>
    simp only [pySplitOn]
    split
    · simp
    · split <;> simp

theorem pySplitOn_head (sep : Char) : ∀ s : List Char,
    (pySplitOn sep s).getD 0 [] = s.takeWhile fun c => !(c == sep) := by
  intro s
  induction s with
  | nil => simp [pySplitOn]
  | cons c cs ih =>
    simp only [pySplitOn]
    by_cases h : c = sep
    · subst h; simp [List.takeWhile_cons]
    · rw [if_neg h]
      cases hx : pySplitOn sep cs with
      | nil => exact absurd hx (pySplitOn_ne_nil sep cs)
      | cons w ws =>
        rw [hx] at ih
        simp only [List.getD_cons_zero] at ih
        simp [List.takeWhile_cons, h, ih]

theorem pySplitOn_second {hn : List Char} (h : ∀ c ∈ hn, (c == ':') = false) :
    ∀ tail : List Char, (pySplitOn ':' (hn ++ ':' :: tail)).getD 1 [] =
      tail.takeWhile fun c => !(c == ':') := by
  induction hn with
  | nil =>
    intro tail
    simp only [List.nil_append, pySplitOn, if_pos rfl, List.getD_cons_succ]
    exact pySplitOn_head ':' tail
  | cons c cs ih =>
    intro tail
    have hc : ¬(c = ':') := by
      have := h c (by simp)
      simpa using this
    simp only [List.cons_append, pySplitOn, if_neg hc]
    cases hx : pySplitOn ':' (cs ++ ':' :: tail) with
    | nil => exact absurd hx (pySplitOn_ne_nil _ _)
    | cons w ws =>
      have hd := ih (fun d hd => h d (by simp [hd])) tail
      rw [hx] at hd
      simpa using hd

theorem getElem?_append_cons : ∀ (A : List Line) (o : Line) (B : List Line),
    (A ++ o :: B)[A.length]? = some o := by
  intro A o B
  induction A with
  | nil => simp
  | cons a as ih => simpa using ih

theorem specializeLines_length (cseq : List Char) (tags : List Tag) :
    ∀ (co : Bool) (ls : List Line),
      ((specializeLines cseq tags co ls).1).length = ls.length := by
  intro co ls
  induction ls generalizing co with
  | nil => rfl
  | cons x xs ih => simp [specializeLines, ih]

theorem generalizeLines_length (cseq : List Char) (tags : List Tag) :
    ∀ (st : Bool) (ls : List Line),
      ((generalizeLines cseq tags st ls).1).length = ls.length := by
  intro st ls
  induction ls generalizing st with
  | nil => rfl
  | cons x xs ih => simp [generalizeLines, ih]

theorem specializeLines_out_at (cseq : List Char) (tags : List Tag) (co : Bool)
    (pre post : List Line) (l : Line) :
    ((specializeLines cseq tags co (pre ++ l :: post)).1)[pre.length]? =
      some (specializeLine cseq tags (specializeLines cseq tags co pre).2 l).1 := by
  rw [specializeLines_append]
  simp only [specializeLines]
  rw [← specializeLines_length cseq tags co pre]
  exact getElem?_append_cons _ _ _

theorem generalizeLines_out_at (cseq : List Char) (tags : List Tag) (st : Bool)
    (pre post : List Line) (l : Line) :
    ((generalizeLines cseq tags st (pre ++ l :: post)).1)[pre.length]? =
      some (generalizeLine cseq tags (generalizeLines cseq tags st pre).2 l).1 := by
  rw [generalizeLines_append]
  simp only [generalizeLines]
  rw [← generalizeLines_length cseq tags st pre]
  exact getElem?_append_cons _ _ _

/-- C1 (corrected): the round trip
`generalize (specialize L cseq tags) cseq tags = L` holds for directive-free
line sequences and for sequences of well-formed, non-nested only/not/end
blocks — provided, in addition, that the body lines of a block that is
suppressed for this host still contain no directive token once prefixed with
the marker.  (Without that proviso the claim is false: see the
counterexample.) -/
theorem generalize_specialize_roundtrip (cseq : List Char) (tags : List Tag)
    (L : List Line) (cs : List Chunk) (hsep : cseq ≠ [])
    (h : (∀ l ∈ L, isDirective cseq l = false) ∨
      (L = chunksLines cs ∧ ∀ c ∈ cs, WfChunk cseq tags c = true)) :
    generalize cseq tags (specialize cseq tags L) = L := by
  rcases h with h | ⟨rfl, h⟩
  · have h1 := specializeLines_noDir_false tags h
    have h2 := generalizeLines_noDir_false tags h
    simp [specialize, generalize, h1, h2]
  · obtain ⟨h1, h2⟩ := roundtrip_chunksAux hsep cs h
    simp [specialize, generalize, h1, h2]

/-- Witness for C1: a plain line plus a `not`-block suppressed for a host
tagged `work` round-trips exactly. -/
theorem generalize_specialize_roundtrip_witness :
    ("#".toList ≠ ([] : List Char)) ∧
    (∀ c ∈ [Chunk.plain "# config\n".toList,
        Chunk.block ⟨"##not work\n".toList, ["personal\n".toList], "##end\n".toList⟩],
      WfChunk "#".toList ["work".toList] c = true) ∧
    generalize "#".toList ["work".toList]
        (specialize "#".toList ["work".toList]
          (chunksLines [Chunk.plain "# config\n".toList,
            Chunk.block ⟨"##not work\n".toList, ["personal\n".toList],
              "##end\n".toList⟩])) =
      chunksLines [Chunk.plain "# config\n".toList,
        Chunk.block ⟨"##not work\n".toList, ["personal\n".toList], "##end\n".toList⟩] :=
  ⟨by decide, by decide,
    generalize_specialize_roundtrip _ _ _ _ (by decide) (Or.inr ⟨rfl, by decide⟩)⟩

/-- Counterexample for C1 as stated: `L = ["##not a\n", "#only x\n", "##end\n"]`
with marker `#` and tag set `{a}` is one well-formed, non-nested block (the
conjuncts check: the body line carries no directive token, the opener is a
`not` line, the ender an `end`-only line), yet the round trip fails — the
suppressed body line `#only x\n` is commented to `##only x\n`, which
generalize then parses as an `only` directive and leaves verbatim. -/
theorem roundtrip_fails_on_commented_directive_lookalike :
    isDirective "#".toList "#only x\n".toList = false ∧
    occursIn (dirTok "#".toList kwNot) "##not a\n".toList = true ∧
    occursIn (dirTok "#".toList kwOnly) "##not a\n".toList = false ∧
    occursIn (dirTok "#".toList kwEnd) "##not a\n".toList = false ∧
    occursIn (dirTok "#".toList kwEnd) "##end\n".toList = true ∧
    occursIn (dirTok "#".toList kwOnly) "##end\n".toList = false ∧
    occursIn (dirTok "#".toList kwNot) "##end\n".toList = false ∧
    specialize "#".toList ["a".toList]
        ["##not a\n".toList, "#only x\n".toList, "##end\n".toList] =
      ["##not a\n".toList, "##only x\n".toList, "##end\n".toList] ∧
    generalize "#".toList ["a".toList]
        ["##not a\n".toList, "##only x\n".toList, "##end\n".toList] =
      ["##not a\n".toList, "##only x\n".toList, "##end\n".toList] ∧
    (decide (generalize "#".toList ["a".toList]
        (specialize "#".toList ["a".toList]
          ["##not a\n".toList, "#only x\n".toList, "##end\n".toList]) =
      ["##not a\n".toList, "#only x\n".toList, "##end\n".toList])) = false := by
  decide

/-- C2 (confirmed): on a directive line carrying exactly one of the `only`/
`not` keywords, both transforms set the suppression flag to `true` exactly
when the keyword is `only` and the host tags have empty intersection with the
section tags, or the keyword is `not` and the intersection is non-empty;
`false` otherwise — and generalize computes the very same flag as
specialize. -/
theorem directive_suppression_rule (cseq : List Char) (tags : List Tag) (co : Bool)
    (line : Line)
    (h : occursIn (dirTok cseq kwOnly) line = true ∧
        occursIn (dirTok cseq kwNot) line = false ∨
      occursIn (dirTok cseq kwOnly) line = false ∧
        occursIn (dirTok cseq kwNot) line = true) :
    ((specializeLine cseq tags co line).2 = true ↔
      (occursIn (dirTok cseq kwOnly) line = true ∧
          ¬(∃ t ∈ tags, t ∈ sectionTags line)) ∨
        (occursIn (dirTok cseq kwNot) line = true ∧
          (∃ t ∈ tags, t ∈ sectionTags line))) ∧
    (generalizeLine cseq tags co line).2 = (specializeLine cseq tags co line).2 := by
  refine ⟨?_, generalizeLine_flag_eq cseq tags co line⟩
  have hiff := tagsMatch_iff_exists tags (sectionTags line)
  rcases h with ⟨hO, hN⟩ | ⟨hO, hN⟩ <;>
    cases hE : occursIn (dirTok cseq kwEnd) line <;>
      cases hM : tagsMatch tags (sectionTags line) <;>
        simp_all [specializeLine]

/-- Witness for C2: the `not work` directive with host tag `work` arms
suppression in both directions. -/
theorem directive_suppression_rule_witness :
    (occursIn (dirTok "#".toList kwOnly) "##not work\n".toList = false ∧
      occursIn (dirTok "#".toList kwNot) "##not work\n".toList = true) ∧
    ((specializeLine "#".toList ["work".toList] false "##not work\n".toList).2 = true ↔
      (occursIn (dirTok "#".toList kwOnly) "##not work\n".toList = true ∧
          ¬(∃ t ∈ ["work".toList], t ∈ sectionTags "##not work\n".toList)) ∨
        (occursIn (dirTok "#".toList kwNot) "##not work\n".toList = true ∧
          (∃ t ∈ ["work".toList], t ∈ sectionTags "##not work\n".toList))) ∧
    (generalizeLine "#".toList ["work".toList] false "##not work\n".toList).2 =
      (specializeLine "#".toList ["work".toList] false "##not work\n".toList).2 :=
  ⟨⟨by decide, by decide⟩,
    directive_suppression_rule "#".toList ["work".toList] false "##not work\n".toList
      (Or.inr ⟨by decide, by decide⟩)⟩

/-- C3 (confirmed): a line containing an only, not or end directive token is
written to the output of both transforms verbatim, at its own position,
whatever the incoming state. -/
theorem directive_lines_verbatim (cseq : List Char) (tags : List Tag)
    (pre post : List Line) (l : Line) (h : isDirective cseq l = true) :
    (specialize cseq tags (pre ++ l :: post))[pre.length]? = some l ∧
    (generalize cseq tags (pre ++ l :: post))[pre.length]? = some l := by
  constructor
  · rw [specialize, specializeLines_out_at,
      (directiveLine_verbatim tags h _).1]
  · rw [generalize, generalizeLines_out_at,
      (directiveLine_verbatim tags h _).2]

/-- Witness for C3: an `##end` line inside a suppressed `only` section is
still emitted verbatim by both transforms. -/
theorem directive_lines_verbatim_witness :
    isDirective "#".toList "##end\n".toList = true ∧
    (specialize "#".toList ["windows".toList]
        (["##only linux\n".toList, "secret\n".toList] ++
          "##end\n".toList :: ["tail\n".toList]))[2]? = some "##end\n".toList ∧
    (generalize "#".toList ["windows".toList]
        (["##only linux\n".toList, "secret\n".toList] ++
          "##end\n".toList :: ["tail\n".toList]))[2]? = some "##end\n".toList :=
  ⟨by decide,
    directive_lines_verbatim "#".toList ["windows".toList]
      ["##only linux\n".toList, "secret\n".toList] ["tail\n".toList]
      "##end\n".toList (by decide)⟩

/-- C4 (confirmed): on a line sequence containing no directive token, both
specialize and generalize are the identity, for every marker and tag set. -/
theorem no_directives_identity (cseq : List Char) (tags : List Tag) (L : List Line)
    (h : ∀ l ∈ L, isDirective cseq l = false) :
    specialize cseq tags L = L ∧ generalize cseq tags L = L := by
  constructor
  · simp [specialize, specializeLines_noDir_false tags h]
  · simp [generalize, generalizeLines_noDir_false tags h]

/-- Witness for C4: a two-line directive-free file passes through both
transforms untouched. -/
theorem no_directives_identity_witness :
    (∀ l ∈ ["# hello\n".toList, "alpha=1\n".toList],
      isDirective "//".toList l = false) ∧
    specialize "//".toList ["linux".toList]
        ["# hello\n".toList, "alpha=1\n".toList] =
      ["# hello\n".toList, "alpha=1\n".toList] ∧
    generalize "//".toList ["linux".toList]
        ["# hello\n".toList, "alpha=1\n".toList] =
      ["# hello\n".toList, "alpha=1\n".toList] :=
  ⟨by decide,
    no_directives_identity "//".toList ["linux".toList]
      ["# hello\n".toList, "alpha=1\n".toList] (by decide)⟩

/-- C5 (confirmed): the comment marker is the first whitespace-delimited
token of the first line — concretely, `"# -*- mode: conf -*-"` yields `"#"`;
a line that splits as whitespace, then a maximal non-whitespace token,
yields that token; an empty or whitespace-only line yields no marker
(`none`, i.e. the fatal `exit()`), and a generalize invocation whose first
line resolves no marker aborts without writing. -/
theorem comment_marker_derivation :
    identify_comment_sequence "# -*- mode: conf -*-".toList = some "#".toList ∧
    (∀ line : Line, (∀ c ∈ line, isPySpace c = true) →
      identify_comment_sequence line = none) ∧
    (∀ pre tok rest : List Char, (∀ c ∈ pre, isPySpace c = true) → tok ≠ [] →
      (∀ c ∈ tok, isPySpace c = false) →
      (rest = [] ∨ ∃ d rs, rest = d :: rs ∧ isPySpace d = true) →
      identify_comment_sequence (pre ++ tok ++ rest) = some tok) ∧
    (∀ (l0 : Line) (rest : List Line) (tags : List Tag),
      identify_comment_sequence l0 = none →
      generalizeFile (some (l0 :: rest)) tags = FileOutcome.fatal) := by
  refine ⟨by decide, ?_, ?_, ?_⟩
  · intro line h
    simp [identify_comment_sequence, pyWords_all_space h]
  · intro pre tok rest h1 h2 h3 h4
    show (pyWords (pre ++ tok ++ rest)).head? = some tok
    rw [pyWords_decomp h1 h2 h3 h4]
    rfl
  · intro l0 rest tags h
    simp [generalizeFile, h]

/-- C6 (confirmed): when the stage file cannot be read (`none`), generalize
is a soft miss: the invocation is skipped, is not fatal, and nothing is
written to the repository. -/
theorem generalize_missing_stage_soft_skip (tags : List Tag) :
    generalizeFile none tags = FileOutcome.skipped ∧
    generalizeFile none tags ≠ FileOutcome.fatal ∧
    ∀ content : List Line, generalizeFile none tags ≠ FileOutcome.wrote content := by
  exact ⟨rfl, by simp [generalizeFile], by simp [generalizeFile]⟩

/-- C7 (corrected): a line containing the doubled-marker `end` token is
written verbatim and leaves the suppression flag `false` — provided the same
line does not also carry an `only`/`not` directive that arms suppression (in
the source the arming branch `continue`s past the `end` reset; see the
counterexample). -/
theorem end_line_resets_suppression (cseq : List Char) (tags : List Tag) (co : Bool)
    (l : Line) (hE : occursIn (dirTok cseq kwEnd) l = true)
    (hO : occursIn (dirTok cseq kwOnly) l = true →
      tagsMatch tags (sectionTags l) = true)
    (hN : occursIn (dirTok cseq kwNot) l = true →
      tagsMatch tags (sectionTags l) = false) :
    specializeLine cseq tags co l = (l, false) ∧
      generalizeLine cseq tags co l = (l, false) :=
  endLine_eval tags hE hO hN co

/-- Witness for C7: a pure `##end` line resets the flag from `true` in both
transforms. -/
theorem end_line_resets_suppression_witness :
    occursIn (dirTok "#".toList kwEnd) "##end\n".toList = true ∧
    specializeLine "#".toList ["x".toList] true "##end\n".toList =
      ("##end\n".toList, false) ∧
    generalizeLine "#".toList ["x".toList] true "##end\n".toList =
      ("##end\n".toList, false) :=
  ⟨by decide,
    end_line_resets_suppression "#".toList ["x".toList] true "##end\n".toList
      (by decide) (fun hx => absurd hx (by decide)) (fun hx => absurd hx (by decide))⟩

/-- Counterexample for C7 as stated: the line `##only a ##end\n` contains the
`end` token, yet with an empty tag set the `only` branch arms suppression and
`continue`s, so the flag is `true` immediately after the line — in both
transforms — contradicting "always resets the suppression flag". -/
theorem end_reset_fails_with_arming_directive :
    occursIn (dirTok "#".toList kwEnd) "##only a ##end\n".toList = true ∧
    (specializeLine "#".toList [] false "##only a ##end\n".toList).2 = true ∧
    (generalizeLine "#".toList [] false "##only a ##end\n".toList).2 = true := by
  decide

/-- C8 (corrected): `get_tags` returns, for the first configuration line
whose prefix is `hostname + ":"`, the space-separated tokens of the text
between the first and the second colon of that line (the whole remainder
when there is no second colon) — not of everything after the first colon
(see the counterexample); when no line matches it returns the default tag
list `[""]` (with a warning). -/
theorem get_tags_first_match_between_colons (hn : List Char) (pre rest : List Line)
    (tail : List Char) (config : List Line) (hcolon : ∀ c ∈ hn, (c == ':') = false)
    (hpre : ∀ l ∈ pre, (hn ++ [':']).isPrefixOf l = false)
    (hnone : ∀ l ∈ config, (hn ++ [':']).isPrefixOf l = false) :
    get_tags hn (pre ++ (hn ++ ':' :: tail) :: rest) =
      pyWords (tail.takeWhile fun c => !(c == ':')) ∧
    get_tags hn config = [[]] := by
  constructor
  · induction pre with
    | nil =>
      have hp : (hn ++ [':']).isPrefixOf (hn ++ ':' :: tail) = true := by
        have h2 : hn ++ ':' :: tail = (hn ++ [':']) ++ tail := by simp
        rw [h2]
        exact isPrefixOf_self_append (hn ++ [':']) tail
      simp only [List.nil_append, get_tags, hp, if_pos]
      rw [show (pySplitOn ':' (hn ++ ':' :: tail)).getD 1 [] =
          tail.takeWhile (fun c => !(c == ':')) from pySplitOn_second hcolon tail]
    | cons p ps ih =>
      have hp := hpre p (by simp)
      simp only [List.cons_append, get_tags, hp, Bool.false_eq_true, if_false]
      exact ih fun l hl => hpre l (by simp [hl])
  · induction config with
    | nil => rfl
    | cons l ls ih =>
      have hl := hnone l (by simp)
      simp only [get_tags, hl, Bool.false_eq_true, if_false]
      exact ih fun x hx => hnone x (by simp [hx])

/-- Witness for C8: host `host1` picks its own line (skipping a non-matching
one) and splits its tag text on whitespace; a config with no matching line
yields the default `[""]`. -/
theorem get_tags_first_match_between_colons_witness :
    get_tags "host1".toList
        ["other: x y\n".toList, ("host1".toList ++ ':' :: " a b\n".toList)] =
      pyWords (" a b\n".toList.takeWhile fun c => !(c == ':')) ∧
    get_tags "host1".toList ["other: x y\n".toList] = [[]] :=
  get_tags_first_match_between_colons "host1".toList ["other: x y\n".toList] []
    " a b\n".toList ["other: x y\n".toList] (by decide) (by decide) (by decide)

/-- Counterexample for C8 as stated: for hostname `h` and the matching line
`h: a:b c`, the line's space-separated tag list is `["a:b", "c"]`, but the
code takes `line.split(':')[1]` — the text between the first and second
colon — and returns `["a"]`. -/
theorem get_tags_truncates_at_second_colon :
    get_tags "h".toList ["h: a:b c".toList] = ["a".toList] ∧
    pyWords " a:b c".toList = ["a:b".toList, "c".toList] ∧
    (decide (get_tags "h".toList ["h: a:b c".toList] =
      pyWords " a:b c".toList)) = false := by
  decide

/-- C9 (corrected): the section tags of a directive line are
`line.split()[1:]` — all whitespace-separated tokens except the *first* —
which coincides with "the tokens that follow the keyword" exactly when the
token containing the directive keyword is the line's first token; otherwise
the two disagree (see the counterexample). -/
theorem section_tags_drop_first_token (cseq kw : List Char) (line : Line)
    (tok : List Char) (rest : List Tag) (h : pyWords line = tok :: rest)
    (hk : occursIn (dirTok cseq kw) tok = true) :
    sectionTags line = rest ∧ sectionTagsSpec cseq kw line = rest := by
  constructor
  · simp [sectionTags, h]
  · simp [sectionTagsSpec, h, List.dropWhile_cons, hk]

/-- Witness for C9: on the well-formed line `##only linux mac\n` both
readings give `["linux", "mac"]`. -/
theorem section_tags_drop_first_token_witness :
    pyWords "##only linux mac\n".toList =
      "##only".toList :: ["linux".toList, "mac".toList] ∧
    occursIn (dirTok "#".toList kwOnly) "##only".toList = true ∧
    sectionTags "##only linux mac\n".toList = ["linux".toList, "mac".toList] ∧
    sectionTagsSpec "#".toList kwOnly "##only linux mac\n".toList =
      ["linux".toList, "mac".toList] :=
  ⟨by decide, by decide,
    section_tags_drop_first_token "#".toList kwOnly "##only linux mac\n".toList
      "##only".toList ["linux".toList, "mac".toList] (by decide) (by decide)⟩

/-- Counterexample for C9 as stated: on the directive line `x ##only y\n`
the tokens that follow the keyword are `["y"]`, but the code's section tags
are `["##only", "y"]`; with host tag set `{"##only"}` the spec's matching
test finds no intersection (an `only` section should be suppressed, flag
`true`), yet the code matches and sets the flag `false`. -/
theorem section_tags_differ_from_spec_tokens :
    occursIn (dirTok "#".toList kwOnly) "x ##only y\n".toList = true ∧
    sectionTagsSpec "#".toList kwOnly "x ##only y\n".toList = ["y".toList] ∧
    sectionTags "x ##only y\n".toList = ["##only".toList, "y".toList] ∧
    tagsMatch ["##only".toList] ["y".toList] = false ∧
    (specializeLine "#".toList ["##only".toList] false "x ##only y\n".toList).2 =
      false ∧
    (generalizeLine "#".toList ["##only".toList] false "x ##only y\n".toList).2 =
      false := by
  decide

/-- C10 (confirmed): in generalize, a line processed under an active
suppression flag that contains no occurrence of the comment marker is
emitted as the empty string — the line, trailing newline included, is
deleted from the output. -/
theorem generalize_deletes_markerless_suppressed_line (cseq : List Char)
    (tags : List Tag) (line : Line) (h : occursIn cseq line = false) :
    (generalizeLine cseq tags true line).1 = [] := by
  have hO := not_occursIn_dirTok kwOnly h
  have hN := not_occursIn_dirTok kwNot h
  have hE := not_occursIn_dirTok kwEnd h
  simp [generalizeLine, hO, hN, hE, stripOne_eq_nil_of_not_occursIn h]

/-- Witness for C10: the suppressed line `secret-setting\n` (no `#` in it)
is deleted outright. -/
theorem generalize_deletes_markerless_suppressed_line_witness :
    occursIn "#".toList "secret-setting\n".toList = false ∧
    (generalizeLine "#".toList ["windows".toList] true
      "secret-setting\n".toList).1 = [] :=
  ⟨by decide,
    generalize_deletes_markerless_suppressed_line "#".toList ["windows".toList]
      "secret-setting\n".toList (by decide)⟩

example : "ab".toList = ['a', 'b'] := by decide
example : occursIn "##only".toList "x ##only y".toList = true := by decide
example : occursIn "##only".toList "#only x".toList = false := by decide
example : pyWords "  a  bc ".toList = ["a".toList, "bc".toList] := by decide
example : pySplit "#".toList "a#b#c".toList = ["a".toList, "b".toList, "c".toList] := by decide
example : stripOne "#".toList "##only x".toList = "#only x".toList := by decide
example : stripOne "#".toList "abc".toList = [] := by decide
example : pySplitOn ':' "h: a:b c".toList = ["h".toList, " a".toList, "b c".toList] := by decide
example :
    specialize "#".toList ["windows".toList]
      ["##only linux mac\n".toList, "secret-setting\n".toList, "##end\n".toList] =
      ["##only linux mac\n".toList, "#secret-setting\n".toList, "##end\n".toList] := by
  decide
example :
    specialize "#".toList ["linux".toList]
      ["##only linux mac\n".toList, "secret-setting\n".toList, "##end\n".toList] =
      ["##only linux mac\n".toList, "secret-setting\n".toList, "##end\n".toList] := by
  decide
example :
    generalize "#".toList ["work".toList]
      ["##not work\n".toList, "#personal-setting\n".toList, "##end\n".toList] =
      ["##not work\n".toList, "personal-setting\n".toList, "##end\n".toList] := by
  decide
example : get_tags "h".toList ["g: x y\n".toList, "h: a b\n".toList] =
    ["a".toList, "b".toList] := by decide
example : identify_comment_sequence "# -*- mode: conf -*-".toList = some "#".toList := by
  decide
